import Mathlib

/-!
# Verification of the pydep multi-source dependency aggregation engine

This file gives a shallow embedding, in Lean 4, of the core parsing,
normalisation, aggregation and removal logic of the `pydep` repository
(`app.py` and `ecosystems/python.py`), together with theorems settling the
specification claims about that logic.

Conventions of the embedding:
* Python strings are Lean `String`s; character-level work happens on `.data`.
* File-system reads are made explicit: each parser takes a small inductive
  describing the outcome of the read (missing file, read error, parse error,
  or the successfully obtained content/structure), mirroring the guard and
  `try`/`except` structure of the Python source.
* Python's `str.lower` / `\s` / `str.strip` / `str.splitlines` are modelled
  on their ASCII behaviour (the behaviour exercised by the repository).
-/

namespace PyDep

/-! ## Character classes (ASCII model of Python's `str` / `re` classes) -/

/-- Python whitespace (`\s`, `str.strip`, ASCII fragment). -/
def pyIsSpace (c : Char) : Bool :=
  c = ' ' || c = '\t' || c = '\n' || c = '\r' || c = '\x0b' || c = '\x0c'

/-- The characters collapsed by `_normalise`: the regex class `[-_.]`. -/
def isSepCh (c : Char) : Bool :=
  c = '-' || c = '_' || c = '.'

/-- The regex class `[A-Za-z0-9]`. -/
def isAlnumCh (c : Char) : Bool :=
  ('A' ≤ c && c ≤ 'Z') || ('a' ≤ c && c ≤ 'z') || ('0' ≤ c && c ≤ '9')

/-- The regex class `[A-Za-z0-9._-]` (package-name characters). -/
def isNameCh (c : Char) : Bool :=
  isAlnumCh c || c = '.' || c = '_' || c = '-'

/-- The regex class `[><=!~]` (version-operator characters). -/
def isOpCh (c : Char) : Bool :=
  c = '>' || c = '<' || c = '=' || c = '!' || c = '~'

/-- The regex class `[A-Za-z0-9.*+!_-]` (version-value characters). -/
def isValCh (c : Char) : Bool :=
  isAlnumCh c || c = '.' || c = '*' || c = '+' || c = '!' || c = '_' || c = '-'

/-! ## `_normalise` (PEP 503 normalisation)

`app.py`:
```
def _normalise(name):
    return re.sub(r"[-_.]+", "-", name).lower()
```
`re.sub(r"[-_.]+", "-", name)` replaces every maximal run of `-`/`_`/`.`
with a single `-`; `.lower()` then lowercases (ASCII model:
`Char.toLower`, which matches Python's `str.lower` on ASCII). -/

/-- Replace every maximal run of separator characters with a single `'-'`.
The boolean records whether we are inside a separator run. -/
def collapseAux : Bool → List Char → List Char
  | _, [] => []
  | inRun, c :: cs =>
    if isSepCh c then
      if inRun then collapseAux true cs
      else '-' :: collapseAux true cs
    else c :: collapseAux false cs

/-- `re.sub(r"[-_.]+", "-", ·)` on a character list. -/
def collapseSeps (l : List Char) : List Char := collapseAux false l

/-- Character-level normalisation: collapse separator runs, then lowercase. -/
def normChars (l : List Char) : List Char :=
  (collapseSeps l).map Char.toLower

/-- `_normalise` from `app.py` (also duplicated in `ecosystems/python.py`). -/
def _normalise (name : String) : String := ⟨normChars name.data⟩

/-- The head of the list is not a separator character (or the list is empty). -/
def headNotSep : List Char → Bool
  | [] => true
  | c :: _ => !isSepCh c

/-- Every separator in the list is the single character `'-'` and is not
immediately followed by another separator. This characterises the image of
`re.sub(r"[-_.]+", "-", ·)`. -/
def goodRun : List Char → Bool
  | [] => true
  | c :: cs => (if isSepCh c then decide (c = '-') && headNotSep cs else true) && goodRun cs


/-! ## `str.strip` and `str.splitlines` (ASCII model) -/

/-- Python `str.strip()` (no argument): drop whitespace at both ends. -/
def pyStripChars (l : List Char) : List Char :=
  ((l.dropWhile pyIsSpace).reverse.dropWhile pyIsSpace).reverse

/-- Line-break characters recognised by `str.splitlines` other than `'\r'`
(which is handled separately because of `"\r\n"`). -/
def isLineBreak (c : Char) : Bool :=
  c = '\n' || c = '\x0b' || c = '\x0c' || c = '\x1c' || c = '\x1d' ||
  c = '\x1e' || c = '\x85' || c = '\u2028' || c = '\u2029'

/-- Python `str.splitlines()`: split at line breaks (treating `"\r\n"` as a
single break), with no trailing empty line. The accumulator holds the current
line reversed. -/
def pySplitlinesAux : List Char → List Char → List (List Char)
  | [], acc => if acc.isEmpty then [] else [acc.reverse]
  | '\r' :: '\n' :: rest, acc => acc.reverse :: pySplitlinesAux rest []
  | '\r' :: rest, acc => acc.reverse :: pySplitlinesAux rest []
  | c :: rest, acc =>
    if isLineBreak c then acc.reverse :: pySplitlinesAux rest []
    else pySplitlinesAux rest (c :: acc)

/-- `str.splitlines()` on a character list. -/
def pySplitlines (l : List Char) : List (List Char) := pySplitlinesAux l []

/-! ## The `_DEP_RE` regex and `_parse_dep_string`

`app.py`:
```
_DEP_RE = re.compile(
    r"^\s*(?P<name>[A-Za-z0-9](?:[A-Za-z0-9._-]*[A-Za-z0-9])?)"
    r"(?:\[.*?\])?"
    r"\s*(?P<spec>(?:[><=!~]+\s*[A-Za-z0-9.*+!_-]+\s*,?\s*)*)"
)

def _parse_dep_string(raw):
    m = _DEP_RE.match(raw)
    if not m: return None
    name = m.group("name")
    spec = m.group("spec").strip() or "*"
    return name, spec
```
The embedding below reproduces `re.match`'s backtracking behaviour on this
particular pattern. -/

/-- The name group: the maximal run of name characters, cut back to end at
its last alphanumeric character (the greedy `[A-Za-z0-9._-]*` backtracks
until the final `[A-Za-z0-9]` matches). -/
def trimToLastAlnum (run : List Char) : List Char :=
  (run.reverse.dropWhile (fun c => !isAlnumCh c)).reverse

/-- The optional extras group `(?:\[.*?\])?` at the current position: if the
next character is `'['` and a `']'` follows before any newline, consume
through that first `']'`; otherwise the group matches empty. -/
def skipExtras (rest : List Char) : List Char :=
  match rest with
  | '[' :: tail =>
    let pre := tail.takeWhile (fun c => !(c = ']' || c = '\n'))
    match tail.drop pre.length with
    | ']' :: after => after
    | _ => rest
  | _ => rest

/-- One iteration of the spec group
`[><=!~]+\s*[A-Za-z0-9.*+!_-]+\s*,?\s*`, trying an operator-run length of
`n` first and backtracking downwards (greedy `+`). Returns the total number
of characters the iteration consumes, or `none` if no length works. -/
def specIterTry (s : List Char) : Nat → Option Nat
  | 0 => none
  | n + 1 =>
    let rest := s.drop (n + 1)
    let ws1 := rest.takeWhile pyIsSpace
    let rest2 := rest.drop ws1.length
    let vals := rest2.takeWhile isValCh
    if vals.isEmpty then specIterTry s n
    else
      let rest3 := rest2.drop vals.length
      let ws2 := rest3.takeWhile pyIsSpace
      let rest4 := rest3.drop ws2.length
      let commaLen := match rest4 with
        | ',' :: _ => 1
        | _ => 0
      let rest5 := rest4.drop commaLen
      let ws3 := rest5.takeWhile pyIsSpace
      some ((n + 1) + ws1.length + vals.length + ws2.length + commaLen + ws3.length)

/-- The spec group `(?:...)*`: repeat iterations while they match, collecting
the consumed text. `fuel` bounds the number of iterations (each iteration
consumes at least one character, so `s.length` suffices). -/
def takeSpecAux : Nat → List Char → List Char
  | 0, _ => []
  | fuel + 1, s =>
    let ops := s.takeWhile isOpCh
    if ops.isEmpty then []
    else
      match specIterTry s ops.length with
      | none => []
      | some k => s.take k ++ takeSpecAux fuel (s.drop k)

/-- `_DEP_RE.match` followed by the group extraction of `_parse_dep_string`,
on character lists: returns `(name, spec)` or `none` when the regex fails. -/
def parseDepChars (raw : List Char) : Option (List Char × List Char) :=
  let s1 := raw.dropWhile pyIsSpace
  match s1 with
  | [] => none
  | c :: _ =>
    if isAlnumCh c then
      let run := s1.takeWhile isNameCh
      let name := trimToLastAlnum run
      let rest := run.drop name.length ++ s1.drop run.length
      let rest2 := skipExtras rest
      let s2 := rest2.dropWhile pyIsSpace
      let specTxt := takeSpecAux s2.length s2
      let spec := pyStripChars specTxt
      some (name, if spec.isEmpty then ['*'] else spec)
    else none

/-- `_parse_dep_string` from `app.py`. -/
def _parse_dep_string (raw : String) : Option (String × String) :=
  (parseDepChars raw.data).map (fun p => (⟨p.1⟩, ⟨p.2⟩))

/-! ## `_parse_requirements` -/

/-- A raw triple `(raw_name, specifier, source_label)` as produced by every
sub-parser. -/
abbrev Triple := String × String × String

/-- Outcome of reading a text file: the `path.is_file()` guard fails, the
read raises (caught by `try`/`except`), or the decoded content. -/
inductive TextRead where
  | missing
  | readError
  | ok (content : String)

/-- The body of the requirement-file line loop: strip the line, skip blanks,
comments (`#`) and option flags (`-`), otherwise parse it as a dependency
string. -/
def reqLineTriples (label : String) (line : List Char) : List Triple :=
  let l := pyStripChars line
  if l.isEmpty then []
  else if l.head? = some '#' then []
  else if l.head? = some '-' then []
  else
    match parseDepChars l with
    | some (n, s) => [(⟨n⟩, ⟨s⟩, label)]
    | none => []

/-- `_parse_requirements` from `app.py`: parse a `requirements.txt`-style
file line by line. `label` is `path.name`. -/
def _parse_requirements (r : TextRead) (label : String) : List Triple :=
  match r with
  | .missing => []
  | .readError => []
  | .ok content => (pySplitlines content.data).flatMap (reqLineTriples label)

/-! ## `_remove_from_requirements` -/

/-- Does this (raw, unstripped) line count as a declaration of the package
with normalised name `norm`? Mirrors the loop-body condition of
`_remove_from_requirements`: non-blank after stripping, not a comment, not a
flag, parses, and the parsed name normalises to `norm`. -/
def lineMatchesNorm (norm : List Char) (line : List Char) : Bool :=
  let stripped := pyStripChars line
  if stripped.isEmpty then false
  else if stripped.head? = some '#' then false
  else if stripped.head? = some '-' then false
  else
    match parseDepChars stripped with
    | some (n, _) => normChars n = norm
    | none => false

/-- The line scan of `_remove_from_requirements`: returns the kept lines (in
order) and whether any line was removed. -/
def removeScan (norm : List Char) : List (List Char) → List (List Char) × Bool
  | [] => ([], false)
  | line :: rest =>
    let (keep, removed) := removeScan norm rest
    if lineMatchesNorm norm line then (keep, true)
    else (line :: keep, removed)

/-- `"\n".join(lines)` on character lists. -/
def joinNewline : List (List Char) → List Char
  | [] => []
  | [l] => l
  | l :: ls => l ++ '\n' :: joinNewline ls

/-- `_remove_from_requirements` from `app.py`. The result is
`(ok, message, written)` where `written = none` means the file was not
rewritten and `written = some c` means content `c` was written back.
`isFile` models `path.is_file()`; `content` is the file's current text and
`fileName` is `path.name`. -/
def _remove_from_requirements (isFile : Bool) (content : String)
    (fileName pkgName : String) : Bool × String × Option String :=
  if !isFile then (false, fileName ++ " not found", none)
  else
    let norm := normChars pkgName.data
    let lines := pySplitlines content.data
    let (newLines, removed) := removeScan norm lines
    if !removed then
      (false, "\x27" ++ pkgName ++ "\x27 not found in " ++ fileName, none)
    else
      (true, "Removed \x27" ++ pkgName ++ "\x27 from " ++ fileName,
        some ⟨joinNewline newLines ++ ['\n']⟩)

/-! ## A model of Python values and exceptions

`tomllib.load` hands the parsers dynamically-typed Python data, and three
of them (`_parse_pyproject`, `_parse_setup_cfg`, `_parse_setup_py`,
`_parse_lock`) have operations *outside* their `try`/`except` guards that
raise on well-formed but unexpectedly-typed input. The embedding therefore
works over a model of Python values and returns `Except PyExn`, so the
escaping-exception paths are representable rather than collapsed. -/

/-- A Python value as produced by `tomllib.load`: a string, a list, a dict
(TOML table), or another scalar (int, float, bool, datetime — carrying
only its truthiness). -/
inductive Toml where
  | str (s : String)
  | list (xs : List Toml)
  | table (entries : List (String × Toml))
  | other (truthy : Bool)

/-- The exceptions the parsers can let escape to the caller. -/
inductive PyExn where
  | typeError
  | attributeError
  | interpolationError
  | valueError
deriving DecidableEq, Repr

/-- `d.get(k, default)` on an actual dict. -/
def dictGet (d : List (String × Toml)) (k : String) (default : Toml) : Toml :=
  match d.find? (fun e => e.1 = k) with
  | some e => e.2
  | none => default

/-- `v.get(k, default)` on an arbitrary value: only dicts have `.get`;
anything else raises `AttributeError`. -/
def pyGet (v : Toml) (k : String) (default : Toml) : Except PyExn Toml :=
  match v with
  | .table es => .ok (dictGet es k default)
  | _ => .error .attributeError

/-- `v.items()` on an arbitrary value. -/
def pyItems : Toml → Except PyExn (List (String × Toml))
  | .table es => .ok es
  | _ => .error .attributeError

/-- `for x in v`: lists iterate their items, strings their characters (as
one-character strings), dicts their keys; other scalars raise
`TypeError`. -/
def pyIter : Toml → Except PyExn (List Toml)
  | .list xs => .ok xs
  | .str s => .ok (s.data.map (fun c => .str ⟨[c]⟩))
  | .table es => .ok (es.map (fun e => .str e.1))
  | .other _ => .error .typeError

/-- Python truthiness of a modelled value. -/
def pyTruthy : Toml → Bool
  | .str s => s ≠ ""
  | .list xs => !xs.isEmpty
  | .table es => !es.isEmpty
  | .other t => t

/-- Outcome of opening and TOML-parsing a file: the `is_file` guard fails,
the `try`/`except`-guarded open/load raises (I/O or TOML error), or the
loaded data. -/
inductive TomlRead (α : Type) where
  | missing
  | loadError
  | ok (data : α)

/-- Parse one PEP 508 string into at most one triple (shared shape of all
the `parsed = _parse_dep_string(raw); if parsed: results.append(...)`
loops). -/
def depStringTriples (label : String) (raw : String) : List Triple :=
  match _parse_dep_string raw with
  | some (n, s) => [(n, s, label)]
  | none => []

/-! ## `_parse_pyproject` -/

/-- The unchecked dependency loops of `_parse_pyproject` (the
`[project].dependencies` and `optional-dependencies` bodies): each element
goes straight into `_parse_dep_string`, whose `_DEP_RE.match` raises
`TypeError` on a non-string (there is no `isinstance` check here, unlike
the PEP 735 loop). -/
def depLoop (label : String) : List Toml → Except PyExn (List Triple)
  | [] => .ok []
  | v :: vs =>
    match v with
    | .str raw => do
      let rest ← depLoop label vs
      match _parse_dep_string raw with
      | some (n, s) => .ok ((n, s, label) :: rest)
      | none => .ok rest
    | _ => .error .typeError

/-- The checked PEP 735 `dependency-groups` loop: `if isinstance(raw, str)`
silently skips non-strings, so it cannot raise. -/
def dgLoop (label : String) : List Toml → List Triple
  | [] => []
  | .str raw :: vs => depStringTriples label raw ++ dgLoop label vs
  | _ :: vs => dgLoop label vs

/-- The `[project].optional-dependencies` section loop. -/
def optLoop (label : String) : List (String × Toml) → Except PyExn (List Triple)
  | [] => .ok []
  | (g, deps) :: rest => do
    let items ← pyIter deps
    let r ← depLoop (label ++ " [" ++ g ++ "]") items
    let rs ← optLoop label rest
    .ok (r ++ rs)

/-- The `[dependency-groups]` section loop. -/
def dgSections (label : String) : List (String × Toml) → Except PyExn (List Triple)
  | [] => .ok []
  | (g, entries) :: rest => do
    let items ← pyIter entries
    let rs ← dgSections label rest
    .ok (dgLoop (label ++ " [" ++ g ++ "]") items ++ rs)

/-- `_parse_pyproject` from `app.py`. `tomlAvailable` models
`tomllib is not None`; `label` is `path.name` (`"pyproject.toml"`); the
`ok` payload is the top-level table `tomllib.load` returns. An exception
raised by any of the section loops escapes to the caller (nothing guards
them). -/
def _parse_pyproject (tomlAvailable : Bool) (r : TomlRead (List (String × Toml)))
    (label : String) : Except PyExn (List Triple) :=
  match r with
  | .missing => .ok []
  | .loadError => .ok []
  | .ok data =>
    if !tomlAvailable then .ok []
    else do
      let project := dictGet data "project" (.table [])
      let deps ← pyGet project "dependencies" (.list [])
      let depItems ← pyIter deps
      let r1 ← depLoop label depItems
      let optDeps ← pyGet project "optional-dependencies" (.table [])
      let optEntries ← pyItems optDeps
      let r2 ← optLoop label optEntries
      let dgEntries ← pyItems (dictGet data "dependency-groups" (.table []))
      let r3 ← dgSections label dgEntries
      .ok (r1 ++ r2 ++ r3)

/-! ## `_parse_setup_py` -/

/-- An element of a `literal_eval`-ed `install_requires` list/tuple: a
string, or some other literal, which the `isinstance(raw, str)` check
skips. -/
inductive GroupEntry where
  | str (s : String)
  | nonStr

/-- The result of `ast.literal_eval` on an `install_requires` keyword value,
as far as `_parse_setup_py` inspects it: the eval may raise (caught and
skipped), the value may be a list/tuple whose elements are strings or not,
or some other literal (skipped). -/
inductive EvaledValue where
  | evalFailed
  | listOrTuple (items : List GroupEntry)
  | otherValue

/-- Outcome of reading and AST-parsing `setup.py`: missing file, read
failure, a `SyntaxError` from `ast.parse` (the only exception its `try`
catches, `app.py:309`), a `ValueError` from `ast.parse` (e.g. null bytes,
which `errors="replace"` reads of binary files produce — *not* caught),
or — abstracting `ast.walk` — the keyword lists of all `Call` nodes, each
keyword an argument name paired with the `literal_eval` outcome of its
value. -/
inductive AstRead where
  | missing
  | readError
  | astSyntaxError
  | astValueError
  | ok (calls : List (List (String × EvaledValue)))

/-- `_parse_setup_py` from `app.py` (label hard-coded to `"setup.py"`).
A `ValueError` from `ast.parse` escapes; everything in the walk itself is
guarded by `isinstance` checks and a `try` around `literal_eval`. -/
def _parse_setup_py (r : AstRead) : Except PyExn (List Triple) :=
  match r with
  | .missing => .ok []
  | .readError => .ok []
  | .astSyntaxError => .ok []
  | .astValueError => .error .valueError
  | .ok calls =>
    .ok (calls.flatMap (fun kws =>
      kws.flatMap (fun kw =>
        if kw.1 ≠ "install_requires" then []
        else
          match kw.2 with
          | .evalFailed => []
          | .otherValue => []
          | .listOrTuple items =>
            items.flatMap (fun it =>
              match it with
              | .str raw => depStringTriples "setup.py" raw
              | .nonStr => []))))

/-! ## `_parse_setup_cfg` -/

/-- Outcome of `configparser` reading `setup.cfg`: missing file, an
exception inside the `try` around `ConfigParser()`/`cfg.read`, or the
result of `cfg.get("options", "install_requires", fallback="")` — which
runs *outside* that `try` (`app.py:344`) and itself raises an
interpolation error on values containing a stray `%`, modelled by the
`Except` payload. The fallback `""` also covers a missing section/key. -/
inductive CfgRead where
  | missing
  | cfgError
  | ok (installRequires : Except PyExn String)

/-- `_parse_setup_cfg` from `app.py` (label hard-coded to `"setup.cfg"`):
the newline-block value is stripped, split into lines, and each stripped
non-blank line is parsed as a dependency string (no comment/flag skipping
here). An exception from `cfg.get` escapes to the caller. -/
def _parse_setup_cfg (r : CfgRead) : Except PyExn (List Triple) :=
  match r with
  | .missing => .ok []
  | .cfgError => .ok []
  | .ok rawResult => do
    let raw ← rawResult
    .ok ((pySplitlines (pyStripChars raw.data)).flatMap (fun line =>
      let l := pyStripChars line
      if l.isEmpty then []
      else
        match parseDepChars l with
        | some (n, s) => [((⟨n⟩ : String), (⟨s⟩ : String), "setup.cfg")]
        | none => []))

/-! ## `_parse_pipfile` -/

/-- A value in a Pipfile `[packages]`/`[dev-packages]` table: a version
string, a table (with an optional `version` key, defaulting to `"*"`), or
any other TOML value (constraint defaults to `"*"`). -/
inductive PipVal where
  | str (s : String)
  | table (version : Option String)
  | otherVal

/-- A Pipfile section as fetched by `data.get(section, {})`: either not a
dict (skipped by the `isinstance` check) or a list of `(name, value)`
entries. -/
inductive PipSection where
  | notDict
  | dict (entries : List (String × PipVal))

/-- The two sections `_parse_pipfile` reads. -/
structure PipfileData where
  packages : PipSection
  devPackages : PipSection

/-- The per-entry constraint extraction of `_parse_pipfile`. -/
def pipfileSpec : PipVal → String
  | .str v => if v ≠ "*" then v else "*"
  | .table v => v.getD "*"
  | .otherVal => "*"

/-- One Pipfile section's triples. -/
def pipSectionTriples : PipSection → List Triple
  | .notDict => []
  | .dict entries => entries.map (fun e => (e.1, pipfileSpec e.2, "Pipfile"))

/-- `_parse_pipfile` from `app.py`. Every dynamic operation here is behind
an `isinstance` check, so this parser genuinely cannot raise. -/
def _parse_pipfile (tomlAvailable : Bool) (r : TomlRead PipfileData) : List Triple :=
  match r with
  | .missing => []
  | .loadError => []
  | .ok data =>
    if !tomlAvailable then []
    else pipSectionTriples data.packages ++ pipSectionTriples data.devPackages

/-! ## `_parse_lock` (`uv.lock` resolver) -/

/-- `dict` assignment `result[key] = value`: replace the value if the key
is present, otherwise append. -/
def dictInsert {α : Type} (m : List (String × α)) (k : String) (v : α) :
    List (String × α) :=
  if m.any (fun e => e.1 = k) then m.map (fun e => if e.1 = k then (k, v) else e)
  else m ++ [(k, v)]

/-- The record loop of `_parse_lock`: `pkg.get` raises `AttributeError` on
a non-dict record, and `_normalise` (a `re.sub`) raises `TypeError` on a
non-string name; a record with a falsy normalised name or version is
skipped. -/
def lockFold (result : List (String × Toml)) :
    List Toml → Except PyExn (List (String × Toml))
  | [] => .ok result
  | pkg :: pkgs => do
    let nameV ← pyGet pkg "name" (.str "")
    let nm ← match nameV with
      | .str nm => Except.ok nm
      | _ => Except.error PyExn.typeError
    let name := _normalise nm
    let versionV ← pyGet pkg "version" (.str "")
    if name ≠ "" ∧ pyTruthy versionV then
      lockFold (dictInsert result name versionV) pkgs
    else
      lockFold result pkgs

/-- `_parse_lock` from `app.py`: build a `normalised name -> version` map
from the `[[package]]` records. The `ok` payload is the top-level table of
`uv.lock`; nothing guards the record loop, so its exceptions escape. -/
def _parse_lock (tomlAvailable : Bool) (r : TomlRead (List (String × Toml))) :
    Except PyExn (List (String × Toml)) :=
  match r with
  | .missing => .ok []
  | .loadError => .ok []
  | .ok data =>
    if !tomlAvailable then .ok []
    else do
      let pkgs ← pyIter (dictGet data "package" (.list []))
      lockFold [] pkgs

/-- `lock_map.get(key, "")` on the (string-valued) merged-in lock map. -/
def lockGet (m : List (String × String)) (k : String) : String :=
  match m.find? (fun e => e.1 = k) with
  | some e => e.2
  | none => ""

/-! ## The data model (`base.py` / `app.py`) -/

/-- `DepSource` from `base.py`: one place a dependency was declared. -/
structure DepSource where
  file : String
  specifier : String
deriving DecidableEq, Repr

/-- `Package` from `base.py`/`app.py`: an aggregated dependency.
(`ecosystem`, a UI back-reference, is omitted: no claim mentions it.) -/
structure Package where
  name : String
  sources : List DepSource
  installed_version : String
deriving DecidableEq, Repr

/-! ## `load_dependencies` (the aggregator)

The file-scanning part of `load_dependencies` concatenates the sub-parsers'
triples in a fixed order; the algorithmic core is the merge fold below,
which is a function of that concatenated triple list and of the lock map.
The fold is modelled over an insertion-ordered association list, which is
exactly a Python `dict`. -/

/-- `str.startswith` (`pre` is the pattern). -/
def startsWithChars : List Char → List Char → Bool
  | [], _ => true
  | _ :: _, [] => false
  | p :: ps, c :: cs => p = c && startsWithChars ps cs

/-- `s.startswith(pre)`. -/
def pyStartsWith (pre s : String) : Bool := startsWithChars pre.data s.data

/-- The duplicate-provenance check:
`any(s.file == source_label and s.specifier == spec for s in pkg.sources)`. -/
def hasDupSource (sources : List DepSource) (label spec : String) : Bool :=
  sources.any (fun s => s.file = label && s.specifier = spec)

/-- The loop body applied to the package record for the triple's key:
append a `DepSource` unless a duplicate exists, then backfill
`installed_version` from a `venv` `==`-constraint when it is still empty.
The triple is `(name, spec, source_label)`. -/
def applyTriple (p : Package) (t : Triple) : Package :=
  let p1 :=
    if hasDupSource p.sources t.2.2 t.2.1 then p
    else { p with sources := p.sources ++ [⟨t.2.2, t.2.1⟩] }
  if t.2.2 = "venv" && p1.installed_version = "" && pyStartsWith "==" t.2.1 then
    { p1 with installed_version := ⟨t.2.1.data.drop 2⟩ }
  else p1

/-- `dict` lookup on the ordered association list. -/
def findPkg (k : String) : List (String × Package) → Option Package
  | [] => none
  | e :: es => if e.1 = k then some e.2 else findPkg k es

/-- In-place value update of a `dict` entry. -/
def replacePkg (m : List (String × Package)) (k : String) (p : Package) :
    List (String × Package) :=
  m.map (fun e => if e.1 = k then (k, p) else e)

/-- One iteration of the merge loop of `load_dependencies`: look up the
normalised key, creating a fresh `Package` (name as first encountered,
empty sources, `installed_version` pre-filled from the lock map) if absent,
then apply the loop body. `lock k` models `lock_map.get(k, "")`. -/
def mergeStep (lock : String → String) (m : List (String × Package))
    (t : Triple) : List (String × Package) :=
  let k := _normalise t.1
  match findPkg k m with
  | some p => replacePkg m k (applyTriple p t)
  | none => m ++ [(k, applyTriple ⟨t.1, [], lock k⟩ t)]

/-- The whole merge loop, starting from the empty dict. -/
def mergeTriples (lock : String → String) (raws : List Triple) :
    List (String × Package) :=
  raws.foldl (mergeStep lock) []

/-- `str.lower()` (ASCII model), for the sort key `p.name.lower()`. -/
def pyLower (s : String) : String := ⟨s.data.map Char.toLower⟩

/-- Python's `<=` on strings: lexicographic order on code points. -/
def charListLe : List Char → List Char → Bool
  | [], _ => true
  | _ :: _, [] => false
  | a :: as, b :: bs =>
    if a < b then true
    else if b < a then false
    else charListLe as bs

/-- The comparison used by `sorted(merged.values(), key=lambda p:
p.name.lower())`: lexicographic (code-point) order on the lowered names. -/
def pkgLe (p q : Package) : Bool :=
  charListLe (pyLower p.name).data (pyLower q.name).data

/-- `load_dependencies` from `app.py`, as a function of the concatenated
raw-triple list and the lock map: merge, then stable-sort the dict values
by case-insensitive display name. (`PythonEcosystem.load_dependencies` in
`ecosystems/python.py` runs the identical merge and sort, minus the `venv`
triples that trigger the backfill branch.) -/
def load_dependencies (lock : String → String) (raws : List Triple) :
    List Package :=
  ((mergeTriples lock raws).map Prod.snd).mergeSort pkgLe

/-! ## Removal routing (`_do_remove` in `app.py`,
`PythonEcosystem.remove` in `ecosystems/python.py`) -/

/-- The action `_do_remove` decides on (everything after the confirm
dialog, before any effect runs): either a local mutator, a delegated `uv`
command, a warning notification (no effect at all), or an error
notification (no effect at all). -/
inductive RemoveAction where
  | warnManual (msg : String)
  | uvRemove (pkg : String)
  | uvRemoveGroup (pkg group : String)
  | reqFile (file pkg : String)
  | cfgFile (pkg : String)
  | pipfileFile (pkg : String)
  | pipUninstall (pkg : String)
  | unknownSource (msg : String)
deriving DecidableEq, Repr

/-- `source_file.split("[", 1)[1]`: everything after the first `'['`. -/
def afterFirstBracket (l : List Char) : List Char :=
  match l.dropWhile (fun c => c ≠ '[') with
  | _ :: rest => rest
  | [] => []

/-- `.rstrip("]")`. -/
def rstripBrackets (l : List Char) : List Char :=
  (l.reverse.dropWhile (fun c => c = ']')).reverse

/-- The routing decision of `_do_remove` in `app.py`. -/
def doRemoveAction (pkgName source : String) : RemoveAction :=
  if source = "setup.py" then
    .warnManual ("Cannot auto-edit setup.py — please remove the dependency \x27"
      ++ pkgName ++ "\x27 manually.")
  else if source = "pyproject.toml" then .uvRemove pkgName
  else if pyStartsWith "pyproject.toml [" source then
    .uvRemoveGroup pkgName ⟨pyStripChars (rstripBrackets (afterFirstBracket source.data))⟩
  else if pyStartsWith "requirements" source then .reqFile source pkgName
  else if source = "setup.cfg" then .cfgFile pkgName
  else if pyStartsWith "Pipfile" source then .pipfileFile pkgName
  else if source = "venv" then .pipUninstall pkgName
  else .unknownSource ("Unknown source: " ++ source)

/-- The result of `PythonEcosystem.remove` in `ecosystems/python.py`
(routing only; the delegated actions are abstract). A `.failure msg`
constructor is the direct `(False, msg)` return. -/
inductive EcoRemoveAction where
  | uvRemove (pkg : String)
  | uvRemoveGroup (pkg group : String)
  | reqFile (file pkg : String)
  | cfgFile (pkg : String)
  | pipfileFile (pkg : String)
  | pipUninstall (pkg : String)
  | failure (msg : String)
deriving DecidableEq, Repr

/-- `PythonEcosystem.remove` from `ecosystems/python.py`. `uvInstalled`
models `self._pkg_mgr is not None`; a `group` of `none` is Python `None`
and `""` is falsy. -/
def pythonEcosystemRemove (uvInstalled : Bool) (package source : String)
    (group : Option String) : EcoRemoveAction :=
  if !uvInstalled then .failure "uv not installed"
  else if source = "pyproject.toml" then
    if (match group with | some g => g ≠ "" && g ≠ "main" | none => false) then
      .uvRemoveGroup package (group.getD "")
    else .uvRemove package
  else if pyStartsWith "pyproject.toml [" source then
    .uvRemoveGroup package
      ⟨rstripBrackets ((afterFirstBracket source.data).takeWhile (fun c => c ≠ '['))⟩
  else if source = "requirements.txt" || pyStartsWith "requirements" source then
    .reqFile source package
  else if source = "setup.cfg" then .cfgFile package
  else if source = "Pipfile" then .pipfileFile package
  else if source = "venv" then .pipUninstall package
  else .failure ("Unknown source: " ++ source)

/-! ## The merge loop of `PythonEcosystem.load_dependencies`
(`ecosystems/python.py`)

Identical to the `app.py` merge except that the `venv` backfill branch is
absent (and the `ecosystem` back-reference, omitted from the model, is
set). -/

/-- The loop body of `PythonEcosystem.load_dependencies`: duplicate check
and append only. -/
def pythonApplyTriple (p : Package) (t : Triple) : Package :=
  if hasDupSource p.sources t.2.2 t.2.1 then p
  else { p with sources := p.sources ++ [⟨t.2.2, t.2.1⟩] }

/-- One iteration of the `ecosystems/python.py` merge loop. -/
def pythonMergeStep (lock : String → String) (m : List (String × Package))
    (t : Triple) : List (String × Package) :=
  let k := _normalise t.1
  match findPkg k m with
  | some p => replacePkg m k (pythonApplyTriple p t)
  | none => m ++ [(k, pythonApplyTriple ⟨t.1, [], lock k⟩ t)]

/-- `PythonEcosystem.load_dependencies` from `ecosystems/python.py`, as a
function of the concatenated triples and lock map. -/
def python_load_dependencies (lock : String → String) (raws : List Triple) :
    List Package :=
  ((raws.foldl (pythonMergeStep lock) []).map Prod.snd).mergeSort pkgLe

/-! ## Specification-side functions

These are not translations of repository code; they are the explicit
per-key descriptions that the aggregation theorems below prove the merge
loop equal to. -/

/-- The `(origin, constraint)` pair of a provenance record. -/
def pairOf (s : DepSource) : String × String := (s.file, s.specifier)

/-- The `(origin, constraint)` pairs of all triples whose name normalises
to `k`, in input order. -/
def pairsFor (k : String) (raws : List Triple) : List (String × String) :=
  (raws.filter (fun t => decide (_normalise t.1 = k))).map (fun t => (t.2.2, t.2.1))

/-- Left-fold deduplication: append each pair unless an equal pair is
already present. -/
def dedupInto (acc ps : List (String × String)) : List (String × String) :=
  ps.foldl (fun a q => if a.any (fun r => r.1 = q.1 && r.2 = q.2) then a else a ++ [q]) acc

/-- Does any triple in the list normalise to key `k`? -/
def keyOccurs (k : String) (raws : List Triple) : Bool :=
  raws.any (fun t => _normalise t.1 = k)

/-- The raw name of the first triple whose name normalises to `k`. -/
def firstNameFor (k : String) : List Triple → Option String
  | [] => none
  | t :: ts => if _normalise t.1 = k then some t.1 else firstNameFor k ts

/-- The resolved version the `venv` backfill produces for key `k` when no
lock version exists: the version of the first key-matching triple of origin
`"venv"` whose constraint starts with `"=="` and carries a non-empty
version (an empty backfill leaves the field empty, so the scan goes on). -/
def firstVenv (k : String) : List Triple → String
  | [] => ""
  | t :: ts =>
    if _normalise t.1 = k && t.2.2 = "venv" && pyStartsWith "==" t.2.1 then
      if (⟨t.2.1.data.drop 2⟩ : String) = "" then firstVenv k ts
      else ⟨t.2.1.data.drop 2⟩
    else firstVenv k ts

/-- The merge loop projected to a single key `k`: the `Option Package`
accumulator is the dict entry for `k`. -/
def stepP (lock : String → String) (k : String) (acc : Option Package)
    (t : Triple) : Option Package :=
  if _normalise t.1 = k then
    some (applyTriple (acc.getD ⟨t.1, [], lock k⟩) t)
  else acc

/-- The dict entry for key `k` after the whole merge loop, computed
key-locally. -/
def pkgFor (lock : String → String) (k : String) (raws : List Triple) :
    Option Package :=
  raws.foldl (stepP lock k) none

/-- Extending an existing package record by the key-matching triples of a
list. -/
def extendPkg (k : String) (p : Package) (raws : List Triple) : Package :=
  raws.foldl (fun q t => if _normalise t.1 = k then applyTriple q t else q) p

/-! # Theorems

Everything from here on is proof: first general lemmas about the
embedded functions, then one theorem (and witness) per specification
claim. -/

/-! ### Facts about `Char.toLower` (ASCII lowercasing) -/

theorem toNat_toLower (c : Char) :
    (Char.toLower c).toNat =
      if 65 ≤ c.toNat ∧ c.toNat ≤ 90 then c.toNat + 32 else c.toNat := by
  unfold Char.toLower
  split
  · rename_i h
    rw [if_pos (by omega)]
    rw [Char.ofNat, dif_pos (Or.inl (by omega))]
    rfl
  · rename_i h
    rw [if_neg (by omega)]

theorem toLower_eq_self_of_not_upper {c : Char}
    (h : ¬(65 ≤ c.toNat ∧ c.toNat ≤ 90)) : Char.toLower c = c := by
  unfold Char.toLower
  exact if_neg (by omega)

theorem toLower_toLower (c : Char) :
    Char.toLower (Char.toLower c) = Char.toLower c := by
  by_cases h : 65 ≤ c.toNat ∧ c.toNat ≤ 90
  · apply toLower_eq_self_of_not_upper
    rw [toNat_toLower, if_pos h]
    omega
  · rw [toLower_eq_self_of_not_upper h, toLower_eq_self_of_not_upper h]

theorem isSepCh_of_toNat_ge {x : Char} (h : 97 ≤ x.toNat) : isSepCh x = false := by
  simp only [isSepCh, Bool.or_eq_false_iff, decide_eq_false_iff_not]
  refine ⟨⟨?_, ?_⟩, ?_⟩ <;> rintro rfl <;> exact absurd h (by decide)

theorem isSepCh_toLower (c : Char) : isSepCh (Char.toLower c) = isSepCh c := by
  by_cases h : 65 ≤ c.toNat ∧ c.toNat ≤ 90
  · rw [isSepCh_of_toNat_ge (by rw [toNat_toLower, if_pos h]; omega)]
    symm
    simp only [isSepCh, Bool.or_eq_false_iff, decide_eq_false_iff_not]
    refine ⟨⟨?_, ?_⟩, ?_⟩ <;> rintro rfl <;> revert h <;> decide
  · rw [toLower_eq_self_of_not_upper h]

/-! ### `collapseSeps` is idempotent and commutes with lowercasing -/

theorem headNotSep_collapseAux_true (l : List Char) :
    headNotSep (collapseAux true l) = true := by
  induction l with
  | nil => rfl
  | cons c cs ih =>
    unfold collapseAux
    by_cases h : isSepCh c
    · simpa [h] using ih
    · simp [h, headNotSep]

theorem goodRun_collapseAux (l : List Char) (b : Bool) :
    goodRun (collapseAux b l) = true := by
  induction l generalizing b with
  | nil => rfl
  | cons c cs ih =>
    unfold collapseAux
    by_cases h : isSepCh c
    · cases b with
      | true => simpa [h] using ih true
      | false =>
        simp only [h, if_true, if_false, Bool.false_eq_true]
        unfold goodRun
        simp [headNotSep_collapseAux_true, ih true]
    · simp only [h, Bool.false_eq_true, if_false]
      unfold goodRun
      simp [h, ih false]

theorem collapseAux_true_eq_false {l : List Char} (h : headNotSep l = true) :
    collapseAux true l = collapseAux false l := by
  cases l with
  | nil => rfl
  | cons c cs =>
    have hc : isSepCh c = false := by
      simpa [headNotSep] using h
    unfold collapseAux
    simp [hc]

theorem collapseAux_false_of_goodRun {l : List Char} (h : goodRun l = true) :
    collapseAux false l = l := by
  induction l with
  | nil => rfl
  | cons c cs ih =>
    unfold goodRun at h
    by_cases hc : isSepCh c
    · simp only [hc, if_true, Bool.and_eq_true, decide_eq_true_eq] at h
      obtain ⟨⟨hdash, hhead⟩, hrest⟩ := h
      unfold collapseAux
      simp only [hc, if_true]
      rw [collapseAux_true_eq_false hhead, ih hrest, hdash]
      simp
    · simp only [hc, if_false, Bool.false_eq_true, true_and] at h
      unfold collapseAux
      simp [hc, ih h]

theorem collapseSeps_idem (l : List Char) :
    collapseSeps (collapseSeps l) = collapseSeps l :=
  collapseAux_false_of_goodRun (goodRun_collapseAux l false)

theorem collapseAux_map_toLower (l : List Char) (b : Bool) :
    collapseAux b (l.map Char.toLower) = (collapseAux b l).map Char.toLower := by
  induction l generalizing b with
  | nil => rfl
  | cons c cs ih =>
    simp only [List.map_cons]
    unfold collapseAux
    rw [isSepCh_toLower]
    by_cases h : isSepCh c
    · cases b with
      | true => simp [h, ih true]
      | false => simp [h, ih true]
    · simp [h, ih false]

theorem normChars_idem (l : List Char) : normChars (normChars l) = normChars l := by
  unfold normChars collapseSeps
  rw [collapseAux_map_toLower, collapseAux_false_of_goodRun (goodRun_collapseAux l false),
    List.map_map]
  congr 1
  funext c
  exact toLower_toLower c

theorem _normalise_idem (s : String) : _normalise (_normalise s) = _normalise s := by
  unfold _normalise
  exact congrArg String.mk (normChars_idem s.data)

/-! ## Association-list (dict) lemmas -/

theorem findPkg_replacePkg_self {m : List (String × Package)} {k : String}
    {p : Package} (h : findPkg k m = some p) (q : Package) :
    findPkg k (replacePkg m k q) = some q := by
  induction m with
  | nil => simp [findPkg] at h
  | cons e es ih =>
    by_cases he : e.1 = k
    · simp [replacePkg, findPkg, he]
    · simp only [findPkg, he, if_false] at h
      simpa [replacePkg, findPkg, he] using ih h

theorem findPkg_replacePkg_ne {m : List (String × Package)} {k k' : String}
    (hne : k ≠ k') (q : Package) :
    findPkg k (replacePkg m k' q) = findPkg k m := by
  induction m with
  | nil => rfl
  | cons e es ih =>
    simp only [replacePkg, List.map_cons] at ih ⊢
    by_cases he : e.1 = k'
    · rw [if_pos he]
      have h1 : ¬(k' = k) := fun h => hne h.symm
      have h2 : ¬(e.1 = k) := fun h => hne (h ▸ he)
      simp only [findPkg, h1, h2, if_false]
      exact ih
    · rw [if_neg he]
      simp only [findPkg]
      by_cases hek : e.1 = k
      · simp [hek]
      · simp only [hek, if_false]
        exact ih

theorem findPkg_append (m l : List (String × Package)) (k : String) :
    findPkg k (m ++ l) =
      match findPkg k m with
      | some p => some p
      | none => findPkg k l := by
  induction m with
  | nil => rfl
  | cons e es ih =>
    by_cases he : e.1 = k <;> simp [findPkg, he, ih]

theorem findPkg_eq_none_iff {m : List (String × Package)} {k : String} :
    findPkg k m = none ↔ k ∉ m.map Prod.fst := by
  induction m with
  | nil => simp [findPkg]
  | cons e es ih =>
    by_cases he : e.1 = k
    · simp [findPkg, he]
    · simp only [findPkg, he, if_false, List.map_cons, List.mem_cons]
      rw [ih, not_or]
      constructor
      · exact fun h => ⟨fun h1 => he h1.symm, h⟩
      · exact fun h => h.2

theorem findPkg_some_mem {m : List (String × Package)} {k : String}
    {p : Package} (h : findPkg k m = some p) : (k, p) ∈ m := by
  induction m with
  | nil => simp [findPkg] at h
  | cons e es ih =>
    by_cases he : e.1 = k
    · simp only [findPkg, he, if_true, Option.some.injEq] at h
      have : e = (k, p) := by
        obtain ⟨e1, e2⟩ := e
        exact Prod.ext he h
      exact List.mem_cons.2 (Or.inl this.symm)
    · simp only [findPkg, he, if_false] at h
      exact List.mem_cons_of_mem _ (ih h)

theorem findPkg_of_mem {m : List (String × Package)}
    (hnd : (m.map Prod.fst).Nodup) {e : String × Package} (he : e ∈ m) :
    findPkg e.1 m = some e.2 := by
  induction m with
  | nil => simp at he
  | cons f fs ih =>
    simp only [List.map_cons, List.nodup_cons] at hnd
    rcases List.mem_cons.1 he with h | h
    · subst h; simp [findPkg]
    · have hne : ¬(f.1 = e.1) := by
        intro heq
        exact hnd.1 (by rw [heq]; exact List.mem_map_of_mem Prod.fst h)
      simp only [findPkg, hne, if_false]
      exact ih hnd.2 h

theorem replacePkg_keys (m : List (String × Package)) (k : String) (p : Package) :
    (replacePkg m k p).map Prod.fst = m.map Prod.fst := by
  induction m with
  | nil => rfl
  | cons e es ih =>
    simp only [replacePkg, List.map_cons, List.cons.injEq] at ih ⊢
    refine ⟨?_, ih⟩
    by_cases he : e.1 = k
    · simp [he]
    · simp [he]

/-! ## The merge loop projected to one key -/

theorem findPkg_mergeStep (lock : String → String) (m : List (String × Package))
    (t : Triple) (k : String) :
    findPkg k (mergeStep lock m t) = stepP lock k (findPkg k m) t := by
  simp only [mergeStep, stepP]
  cases hf : findPkg (_normalise t.1) m with
  | some p =>
    dsimp only
    by_cases hk : _normalise t.1 = k
    · subst hk
      rw [hf, findPkg_replacePkg_self hf]
      simp
    · rw [findPkg_replacePkg_ne (fun h => hk h.symm), if_neg hk]
  | none =>
    dsimp only
    by_cases hk : _normalise t.1 = k
    · subst hk
      rw [findPkg_append, hf]
      simp [findPkg]
    · rw [findPkg_append, if_neg hk]
      cases hfk : findPkg k m <;> simp [findPkg, hk]

theorem findPkg_foldl (lock : String → String) (raws : List Triple)
    (m : List (String × Package)) (k : String) :
    findPkg k (raws.foldl (mergeStep lock) m) =
      raws.foldl (stepP lock k) (findPkg k m) := by
  induction raws generalizing m with
  | nil => rfl
  | cons t ts ih =>
    simp only [List.foldl_cons]
    rw [ih, findPkg_mergeStep]

theorem findPkg_mergeTriples (lock : String → String) (raws : List Triple)
    (k : String) :
    findPkg k (mergeTriples lock raws) = pkgFor lock k raws := by
  unfold mergeTriples pkgFor
  rw [findPkg_foldl]
  rfl

theorem foldl_stepP_some (lock : String → String) (k : String) (p : Package)
    (raws : List Triple) :
    raws.foldl (stepP lock k) (some p) = some (extendPkg k p raws) := by
  induction raws generalizing p with
  | nil => rfl
  | cons t ts ih =>
    simp only [List.foldl_cons, extendPkg, stepP]
    by_cases hk : _normalise t.1 = k
    · simp only [hk, if_true, Option.getD_some]
      exact ih (applyTriple p t)
    · simp only [hk, if_false]
      exact ih p

theorem pkgFor_cons (lock : String → String) (k : String) (t : Triple)
    (ts : List Triple) :
    pkgFor lock k (t :: ts) =
      if _normalise t.1 = k then
        some (extendPkg k (applyTriple ⟨t.1, [], lock k⟩ t) ts)
      else pkgFor lock k ts := by
  unfold pkgFor
  simp only [List.foldl_cons, stepP]
  by_cases hk : _normalise t.1 = k
  · simp only [hk, if_true, Option.getD_none]
    exact foldl_stepP_some lock k _ ts
  · simp [hk]

/-! ## Components of `applyTriple` -/

theorem applyTriple_name (p : Package) (t : Triple) :
    (applyTriple p t).name = p.name := by
  simp only [applyTriple]
  split <;> split <;> rfl

theorem applyTriple_sources (p : Package) (t : Triple) :
    (applyTriple p t).sources =
      if hasDupSource p.sources t.2.2 t.2.1 then p.sources
      else p.sources ++ [⟨t.2.2, t.2.1⟩] := by
  simp only [applyTriple]
  split <;> split <;> rfl

theorem applyTriple_iv (p : Package) (t : Triple) :
    (applyTriple p t).installed_version =
      if t.2.2 = "venv" && p.installed_version = "" && pyStartsWith "==" t.2.1
      then (⟨t.2.1.data.drop 2⟩ : String)
      else p.installed_version := by
  simp only [applyTriple]
  split <;> split <;> simp_all

theorem hasDupSource_eq_any_pairs (sources : List DepSource) (label spec : String) :
    hasDupSource sources label spec =
      (sources.map pairOf).any (fun r => r.1 = label && r.2 = spec) := by
  induction sources with
  | nil => rfl
  | cons s ss ih =>
    simp only [hasDupSource, List.any_cons, List.map_cons] at ih ⊢
    rw [ih]
    rfl

/-! ## `dedupInto` -/

theorem dedupInto_nil (acc : List (String × String)) : dedupInto acc [] = acc := rfl

theorem dedupInto_cons (acc : List (String × String)) (q : String × String)
    (qs : List (String × String)) :
    dedupInto acc (q :: qs) =
      dedupInto (if acc.any (fun r => r.1 = q.1 && r.2 = q.2) then acc
        else acc ++ [q]) qs := rfl

theorem pair_any_eq_mem (acc : List (String × String)) (q : String × String) :
    acc.any (fun r => r.1 = q.1 && r.2 = q.2) = decide (q ∈ acc) := by
  induction acc with
  | nil => simp
  | cons r rs ih =>
    simp only [List.any_cons, ih, List.mem_cons]
    by_cases h : r = q
    · subst h; simp
    · have : ¬(r.1 = q.1 ∧ r.2 = q.2) := fun hc => h (Prod.ext hc.1 hc.2)
      by_cases h1 : r.1 = q.1 <;> by_cases h2 : r.2 = q.2 <;>
        simp_all [eq_comm (a := q) (b := r)]

theorem dedupInto_sub (acc ps : List (String × String)) :
    ∃ rest, dedupInto acc ps = acc ++ rest := by
  induction ps generalizing acc with
  | nil => exact ⟨[], (List.append_nil acc).symm⟩
  | cons q qs ih =>
    rw [dedupInto_cons]
    by_cases h : acc.any (fun r => r.1 = q.1 && r.2 = q.2)
    · rw [if_pos h]; exact ih acc
    · rw [if_neg h]
      obtain ⟨rest, hr⟩ := ih (acc ++ [q])
      exact ⟨q :: rest, by simp [hr]⟩

theorem dedupInto_nodup (acc ps : List (String × String)) (h : acc.Nodup) :
    (dedupInto acc ps).Nodup := by
  induction ps generalizing acc with
  | nil => exact h
  | cons q qs ih =>
    rw [dedupInto_cons]
    by_cases hq : acc.any (fun r => r.1 = q.1 && r.2 = q.2)
    · rw [if_pos hq]; exact ih acc h
    · rw [if_neg hq]
      refine ih _ ?_
      rw [pair_any_eq_mem] at hq
      have hqm : q ∉ acc := by simpa using hq
      rw [List.nodup_append]
      refine ⟨h, List.nodup_singleton q, ?_⟩
      intro a ha hb
      rw [List.mem_singleton] at hb
      subst hb
      exact hqm ha

theorem dedupInto_eq_append (acc ps : List (String × String)) (hnd : ps.Nodup)
    (hdisj : ∀ q ∈ ps, q ∉ acc) : dedupInto acc ps = acc ++ ps := by
  induction ps generalizing acc with
  | nil => simp [dedupInto_nil]
  | cons q qs ih =>
    rw [dedupInto_cons, pair_any_eq_mem]
    have hq : q ∉ acc := hdisj q (List.mem_cons_self q qs)
    rw [if_neg (by simpa using hq)]
    rw [List.nodup_cons] at hnd
    rw [ih (acc ++ [q]) hnd.2 ?_]
    · simp
    · intro r hr
      simp only [List.mem_append, List.mem_singleton, not_or]
      exact ⟨fun hc => hdisj r (List.mem_cons_of_mem _ hr) hc,
        fun hc => hnd.1 (hc ▸ hr)⟩

/-! ## Characterisation of `extendPkg` and `pkgFor` -/

theorem pairsFor_cons (k : String) (t : Triple) (ts : List Triple) :
    pairsFor k (t :: ts) =
      if _normalise t.1 = k then (t.2.2, t.2.1) :: pairsFor k ts
      else pairsFor k ts := by
  unfold pairsFor
  by_cases hk : _normalise t.1 = k <;> simp [List.filter_cons, hk]

theorem extendPkg_nil (k : String) (p : Package) : extendPkg k p [] = p := rfl

theorem extendPkg_cons (k : String) (p : Package) (t : Triple) (ts : List Triple) :
    extendPkg k p (t :: ts) =
      extendPkg k (if _normalise t.1 = k then applyTriple p t else p) ts := by
  unfold extendPkg
  simp only [List.foldl_cons]

theorem extendPkg_name (k : String) (raws : List Triple) (p : Package) :
    (extendPkg k p raws).name = p.name := by
  induction raws generalizing p with
  | nil => rfl
  | cons t ts ih =>
    rw [extendPkg_cons]
    by_cases hk : _normalise t.1 = k
    · rw [if_pos hk, ih, applyTriple_name]
    · rw [if_neg hk, ih]

theorem extendPkg_sources_pairs (k : String) (raws : List Triple) (p : Package) :
    (extendPkg k p raws).sources.map pairOf =
      dedupInto (p.sources.map pairOf) (pairsFor k raws) := by
  induction raws generalizing p with
  | nil => rw [extendPkg_nil]; rfl
  | cons t ts ih =>
    rw [extendPkg_cons, pairsFor_cons]
    by_cases hk : _normalise t.1 = k
    · rw [if_pos hk, if_pos hk, ih, dedupInto_cons]
      congr 1
      rw [applyTriple_sources, hasDupSource_eq_any_pairs]
      by_cases hd : (p.sources.map pairOf).any (fun r => r.1 = t.2.2 && r.2 = t.2.1)
      · rw [if_pos hd, if_pos hd]
      · rw [if_neg hd, if_neg hd, List.map_append]
        rfl
    · rw [if_neg hk, if_neg hk, ih]

theorem firstVenv_nil (k : String) : firstVenv k [] = "" := rfl

theorem firstVenv_cons (k : String) (t : Triple) (ts : List Triple) :
    firstVenv k (t :: ts) =
      if _normalise t.1 = k && t.2.2 = "venv" && pyStartsWith "==" t.2.1 then
        if (⟨t.2.1.data.drop 2⟩ : String) = "" then firstVenv k ts
        else (⟨t.2.1.data.drop 2⟩ : String)
      else firstVenv k ts := rfl

theorem extendPkg_iv (k : String) (raws : List Triple) (p : Package) :
    (extendPkg k p raws).installed_version =
      if p.installed_version = "" then firstVenv k raws
      else p.installed_version := by
  induction raws generalizing p with
  | nil =>
    rw [extendPkg_nil, firstVenv_nil]
    by_cases hiv : p.installed_version = ""
    · rw [if_pos hiv]; exact hiv
    · rw [if_neg hiv]
  | cons t ts ih =>
    rw [extendPkg_cons, firstVenv_cons]
    by_cases hk : _normalise t.1 = k
    · rw [if_pos hk, ih, applyTriple_iv]
      by_cases hiv : p.installed_version = "" <;>
        by_cases hvenv : t.2.2 = "venv" <;>
          by_cases hst : pyStartsWith "==" t.2.1 = true <;>
            by_cases hz : (⟨t.2.1.data.drop 2⟩ : String) = "" <;>
              simp [hk, hiv, hvenv, hst, hz]
    · rw [if_neg hk, ih]
      simp [hk]

theorem pkgFor_eq_none_iff (lock : String → String) (k : String)
    (raws : List Triple) :
    pkgFor lock k raws = none ↔ pairsFor k raws = [] := by
  induction raws with
  | nil => simp [pkgFor, pairsFor]
  | cons t ts ih =>
    rw [pkgFor_cons, pairsFor_cons]
    by_cases hk : _normalise t.1 = k
    · simp [hk]
    · simp only [hk, if_false]
      exact ih

theorem pkgFor_some_spec (lock : String → String) (k : String)
    (raws : List Triple) (p : Package) (h : pkgFor lock k raws = some p) :
    p.sources.map pairOf = dedupInto [] (pairsFor k raws) ∧
    _normalise p.name = k ∧
    p.installed_version =
      (if lock k = "" then firstVenv k raws else lock k) := by
  induction raws with
  | nil => simp [pkgFor] at h
  | cons t ts ih =>
    rw [pkgFor_cons] at h
    by_cases hk : _normalise t.1 = k
    · rw [if_pos hk, Option.some.injEq] at h
      subst h
      have hext : extendPkg k (applyTriple ⟨t.1, [], lock k⟩ t) ts =
          extendPkg k (⟨t.1, [], lock k⟩ : Package) (t :: ts) := by
        rw [extendPkg_cons, if_pos hk]
      rw [hext]
      refine ⟨?_, ?_, ?_⟩
      · rw [extendPkg_sources_pairs]
        rfl
      · rw [extendPkg_name, hk]
      · rw [extendPkg_iv]
    · rw [if_neg hk] at h
      rw [pairsFor_cons, if_neg hk]
      have hfv : firstVenv k (t :: ts) = firstVenv k ts := by
        rw [firstVenv_cons]
        simp [hk]
      rw [hfv]
      exact ih h

/-! ## Key uniqueness of the merge map -/

theorem mergeStep_keys_nodup (lock : String → String)
    (m : List (String × Package)) (t : Triple)
    (h : (m.map Prod.fst).Nodup) :
    ((mergeStep lock m t).map Prod.fst).Nodup := by
  simp only [mergeStep]
  cases hf : findPkg (_normalise t.1) m with
  | some p =>
    dsimp only
    rw [replacePkg_keys]
    exact h
  | none =>
    dsimp only
    rw [List.map_append]
    simp only [List.map_cons, List.map_nil]
    rw [List.nodup_append]
    refine ⟨h, List.nodup_singleton _, ?_⟩
    intro a ha hb
    rw [List.mem_singleton] at hb
    subst hb
    exact (findPkg_eq_none_iff.1 hf) ha

theorem mergeTriples_keys_nodup (lock : String → String) (raws : List Triple) :
    ((mergeTriples lock raws).map Prod.fst).Nodup := by
  unfold mergeTriples
  have main : ∀ (m : List (String × Package)), (m.map Prod.fst).Nodup →
      ((raws.foldl (mergeStep lock) m).map Prod.fst).Nodup := by
    induction raws with
    | nil => exact fun m h => h
    | cons t ts ih =>
      intro m h
      exact ih _ (mergeStep_keys_nodup lock m t h)
  exact main [] (by simp)

/-! ## From membership in the aggregate to the per-key characterisation -/

theorem mem_load_spec (lock : String → String) (raws : List Triple)
    (p : Package) (h : p ∈ load_dependencies lock raws) :
    pkgFor lock (_normalise p.name) raws = some p := by
  unfold load_dependencies at h
  rw [List.mem_mergeSort] at h
  obtain ⟨e, he, hep⟩ := List.mem_map.1 h
  have hfind : findPkg e.1 (mergeTriples lock raws) = some e.2 :=
    findPkg_of_mem (mergeTriples_keys_nodup lock raws) he
  rw [findPkg_mergeTriples] at hfind
  subst hep
  obtain ⟨-, hname, -⟩ := pkgFor_some_spec lock e.1 raws e.2 hfind
  rw [hname]
  exact hfind

theorem load_dependencies_mem_of_pkgFor (lock : String → String)
    (raws : List Triple) (k : String) (p : Package)
    (h : pkgFor lock k raws = some p) : p ∈ load_dependencies lock raws := by
  unfold load_dependencies
  rw [List.mem_mergeSort]
  rw [← findPkg_mergeTriples] at h
  exact List.mem_map.2 ⟨(k, p), findPkg_some_mem h, rfl⟩

/-! ## The sort comparison -/

theorem charListLe_total (a b : List Char) : charListLe a b || charListLe b a := by
  induction a generalizing b with
  | nil => simp [charListLe]
  | cons x xs ih =>
    cases b with
    | nil => simp [charListLe]
    | cons y ys =>
      rcases lt_trichotomy x y with h | h | h
      · simp [charListLe, h]
      · subst h
        simpa [charListLe] using ih ys
      · simp [charListLe, h, lt_asymm h]

theorem charListLe_trans : ∀ {a b c : List Char},
    charListLe a b = true → charListLe b c = true → charListLe a c = true := by
  intro a
  induction a with
  | nil => intro b c _ _; rfl
  | cons x xs ih =>
    intro b c h1 h2
    cases b with
    | nil => simp [charListLe] at h1
    | cons y ys =>
      cases c with
      | nil => simp [charListLe] at h2
      | cons z zs =>
        rcases lt_trichotomy x y with hxy | hxy | hxy
        · rcases lt_trichotomy y z with hyz | hyz | hyz
          · simp [charListLe, lt_trans hxy hyz]
          · subst hyz; simp [charListLe, hxy]
          · simp [charListLe, lt_asymm hyz, hyz] at h2
        · subst hxy
          simp only [charListLe, lt_irrefl, if_false] at h1 h2 ⊢
          rcases lt_trichotomy x z with hyz | hyz | hyz
          · simp [hyz]
          · subst hyz
            simp at h1 h2 ⊢
            exact ih h1 h2
          · simp [lt_asymm hyz, hyz] at h2
        · simp [charListLe, lt_asymm hxy, hxy] at h1

theorem pkgLe_trans (p q r : Package) :
    pkgLe p q → pkgLe q r → pkgLe p r := charListLe_trans

theorem pkgLe_total (p q : Package) : pkgLe p q || pkgLe q p :=
  charListLe_total _ _

theorem mergeSort_pair {α : Type} (le : α → α → Bool) (a b : α) :
    [a, b].mergeSort le = if le a b then [a, b] else [b, a] := by
  simp [List.mergeSort, List.merge]

/-! ## The `ecosystems/python.py` merge agrees with the `app.py` merge on
its input space (its parsers never produce the `"venv"` origin) -/

theorem pythonApplyTriple_eq (p : Package) (t : Triple) (h : t.2.2 ≠ "venv") :
    pythonApplyTriple p t = applyTriple p t := by
  simp [applyTriple, pythonApplyTriple, h]

theorem pythonMergeStep_eq (lock : String → String)
    (m : List (String × Package)) (t : Triple) (h : t.2.2 ≠ "venv") :
    pythonMergeStep lock m t = mergeStep lock m t := by
  simp only [pythonMergeStep, mergeStep, pythonApplyTriple_eq _ _ h]

theorem python_load_dependencies_eq (lock : String → String) (raws : List Triple)
    (h : ∀ t ∈ raws, t.2.2 ≠ "venv") :
    python_load_dependencies lock raws = load_dependencies lock raws := by
  unfold python_load_dependencies load_dependencies mergeTriples
  have main : ∀ (raws2 : List Triple), (∀ t ∈ raws2, t.2.2 ≠ "venv") →
      ∀ (m : List (String × Package)),
      raws2.foldl (pythonMergeStep lock) m = raws2.foldl (mergeStep lock) m := by
    intro raws2
    induction raws2 with
    | nil => intro _ m; rfl
    | cons t ts ih =>
      intro hall m
      simp only [List.foldl_cons]
      rw [pythonMergeStep_eq lock m t (hall t (List.mem_cons_self _ _))]
      exact ih (fun u hu => hall u (List.mem_cons_of_mem _ hu)) (mergeStep lock m t)
  rw [main raws h []]

/-! ## The removal scan -/

theorem removeScan_eq (norm : List Char) (lines : List (List Char)) :
    removeScan norm lines =
      (lines.filter (fun l => !lineMatchesNorm norm l),
        lines.any (lineMatchesNorm norm)) := by
  induction lines with
  | nil => rfl
  | cons l ls ih =>
    simp only [removeScan, ih, List.filter_cons, List.any_cons]
    by_cases h : lineMatchesNorm norm l <;> simp [h]

/-! ## Bare-token lines parse with constraint `"*"` -/

theorem pyIsSpace_of_isAlnumCh {c : Char} (h : isAlnumCh c = true) :
    pyIsSpace c = false := by
  simp only [pyIsSpace, Bool.or_eq_false_iff, decide_eq_false_iff_not]
  refine ⟨⟨⟨⟨⟨?_, ?_⟩, ?_⟩, ?_⟩, ?_⟩, ?_⟩ <;> rintro rfl <;> revert h <;> decide

theorem takeWhile_of_all {p : Char → Bool} :
    ∀ {l : List Char}, l.all p = true → l.takeWhile p = l := by
  intro l
  induction l with
  | nil => intro _; rfl
  | cons c cs ih =>
    intro h
    rw [List.all_cons, Bool.and_eq_true] at h
    rw [List.takeWhile_cons, if_pos h.1, ih h.2]

theorem parseDepChars_bare (line : List Char) (hne : line ≠ [])
    (hall : line.all isNameCh = true)
    (hhead : line.head?.all isAlnumCh = true)
    (hlast : line.getLast?.all isAlnumCh = true) :
    parseDepChars line = some (line, ['*']) := by
  obtain ⟨c, cs, rfl⟩ : ∃ c cs, line = c :: cs := by
    cases line with
    | nil => exact absurd rfl hne
    | cons c cs => exact ⟨c, cs, rfl⟩
  have hc : isAlnumCh c = true := by simpa using hhead
  have hdrop : (c :: cs).dropWhile pyIsSpace = c :: cs := by
    rw [List.dropWhile_cons, if_neg (by simp [pyIsSpace_of_isAlnumCh hc])]
  have hrev : ∃ g gs, (c :: cs).reverse = g :: gs ∧ isAlnumCh g = true := by
    have hgl : (c :: cs).getLast? = (c :: cs).reverse.head? := by
      rw [List.head?_reverse]
    cases hr : (c :: cs).reverse with
    | nil => exact absurd (congrArg List.length hr) (by simp)
    | cons g gs =>
      refine ⟨g, gs, rfl, ?_⟩
      rw [hgl, hr] at hlast
      simpa using hlast
  obtain ⟨g, gs, hrev_eq, hg⟩ := hrev
  have htrim : trimToLastAlnum (c :: cs) = c :: cs := by
    unfold trimToLastAlnum
    rw [hrev_eq, List.dropWhile_cons, if_neg (by simp [hg]), ← hrev_eq,
      List.reverse_reverse]
  unfold parseDepChars
  rw [hdrop]
  simp only [hc, if_true]
  rw [takeWhile_of_all hall, htrim]
  simp only [List.drop_length, List.dropWhile_nil, List.append_nil,
    List.nil_append]
  rfl

/-- The stripped form of a bare-token line is itself. -/
theorem pyStripChars_bare (line : List Char) (hne : line ≠ [])
    (hall : line.all isNameCh = true)
    (hhead : line.head?.all isAlnumCh = true)
    (hlast : line.getLast?.all isAlnumCh = true) :
    pyStripChars line = line := by
  obtain ⟨c, cs, rfl⟩ : ∃ c cs, line = c :: cs := by
    cases line with
    | nil => exact absurd rfl hne
    | cons c cs => exact ⟨c, cs, rfl⟩
  have hc : isAlnumCh c = true := by simpa using hhead
  unfold pyStripChars
  rw [List.dropWhile_cons, if_neg (by simp [pyIsSpace_of_isAlnumCh hc])]
  cases hr : (c :: cs).reverse with
  | nil => exact absurd (congrArg List.length hr) (by simp)
  | cons g gs =>
    have hg : isAlnumCh g = true := by
      have hgl : (c :: cs).getLast? = (c :: cs).reverse.head? := by
        rw [List.head?_reverse]
      rw [hgl, hr] at hlast
      simpa using hlast
    rw [List.dropWhile_cons, if_neg (by simp [pyIsSpace_of_isAlnumCh hg]), ← hr,
      List.reverse_reverse]

/-! # Claim theorems -/

/-- **C4.** The identity normaliser `_normalise` is a pure total function
(it lowercases and replaces every maximal run of `-`/`_`/`.` with a single
`-`); it is idempotent — `_normalise (_normalise x) = _normalise x` for
every string `x` — and `_normalise "Foo_Bar.Baz" = _normalise
"foo-bar-baz" = "foo-bar-baz"`. -/
theorem claim_C4_normaliser_idempotent :
    (∀ x : String, _normalise (_normalise x) = _normalise x) ∧
    _normalise "Foo_Bar.Baz" = "foo-bar-baz" ∧
    _normalise "foo-bar-baz" = "foo-bar-baz" :=
  ⟨_normalise_idem, by decide, by decide⟩

/-- **C2 (code bug).** Fail-open holds on every *guarded* path: missing
files, unreadable files, and the parse failures the `try`/`except` blocks
catch all yield the empty list (or the empty map, whose lookups are
empty), and `_parse_requirements` and `_parse_pipfile` can never raise at
all. But "never raises to the caller ... malformed content yields an empty
list" is false of the program: four unguarded paths raise, exhibited here
on concrete inputs — `_parse_pyproject` raises `TypeError` on valid TOML
`dependencies = [1]` and `AttributeError` on a non-dict
`optional-dependencies`; `_parse_setup_cfg` lets the interpolation error
of `cfg.get` (run outside its `try`) escape; `_parse_setup_py` catches
only `SyntaxError`, so a `ValueError` from `ast.parse` escapes; and
`_parse_lock` raises `AttributeError` on a non-table `[[package]]`
entry. -/
theorem claim_C2_fail_open_gaps :
    ((∀ (avail : Bool) (label : String) (d : List (String × Toml)),
      _parse_pyproject avail .missing label = .ok [] ∧
      _parse_pyproject avail .loadError label = .ok [] ∧
      _parse_pyproject false (.ok d) label = .ok []) ∧
    (∀ label : String,
      _parse_requirements .missing label = [] ∧
      _parse_requirements .readError label = []) ∧
    (_parse_setup_py .missing = .ok [] ∧ _parse_setup_py .readError = .ok [] ∧
      _parse_setup_py .astSyntaxError = .ok []) ∧
    (_parse_setup_cfg .missing = .ok [] ∧ _parse_setup_cfg .cfgError = .ok []) ∧
    (∀ (avail : Bool) (d : PipfileData),
      _parse_pipfile avail .missing = [] ∧
      _parse_pipfile avail .loadError = [] ∧
      _parse_pipfile false (.ok d) = []) ∧
    (∀ (avail : Bool) (d : List (String × Toml)),
      _parse_lock avail .missing = .ok [] ∧
      _parse_lock avail .loadError = .ok [] ∧
      _parse_lock false (.ok d) = .ok []) ∧
    (∀ k : String, lockGet [] k = "")) ∧
    (_parse_pyproject true
      (.ok [("project", .table [("dependencies", .list [.other true])])])
      "pyproject.toml" = .error .typeError ∧
    _parse_pyproject true
      (.ok [("project", .table [("optional-dependencies", .str "x")])])
      "pyproject.toml" = .error .attributeError ∧
    _parse_setup_cfg (.ok (.error .interpolationError)) =
      .error .interpolationError ∧
    _parse_setup_py .astValueError = .error .valueError ∧
    _parse_lock true (.ok [("package", .list [.other true])]) =
      .error .attributeError) :=
  ⟨⟨fun _ _ _ => ⟨rfl, rfl, rfl⟩, fun _ => ⟨rfl, rfl⟩, ⟨rfl, rfl, rfl⟩,
    ⟨rfl, rfl⟩, fun _ _ => ⟨rfl, rfl, rfl⟩, fun _ _ => ⟨rfl, rfl, rfl⟩,
    fun _ => rfl⟩,
    ⟨rfl, rfl, rfl, rfl, rfl⟩⟩

/-- **C9.** For a removal request whose source origin is `"setup.py"`, the
monolithic app's `_do_remove` performs no file mutation and emits a
warning instructing the user to remove the dependency manually; but the
ecosystem router `PythonEcosystem.remove` returns the generic
`(False, "Unknown source: setup.py")` failure instead of that
manual-edit instruction — even though its own aggregator produces sources
labelled `"setup.py"`. This theorem exhibits both routing results. -/
theorem claim_C9_setup_py_removal_routing :
    (∀ pkg : String, doRemoveAction pkg "setup.py" =
      .warnManual ("Cannot auto-edit setup.py — please remove the dependency \x27"
        ++ pkg ++ "\x27 manually.")) ∧
    (∀ (pkg : String) (group : Option String),
      pythonEcosystemRemove true pkg "setup.py" group =
        .failure "Unknown source: setup.py") :=
  ⟨fun _ => rfl, fun _ _ => rfl⟩

/-- **C5.** For every existing requirements-style file and package name
such that no line of the file is a dependency declaration whose parsed
name normalises to the normalised package name, `_remove_from_requirements`
returns `ok = false` with message `'<name>' not found in <file>` and writes
nothing (the file is untouched). -/
theorem claim_C5_remove_not_found_no_write (content fileName pkgName : String)
    (hnomatch : ∀ line ∈ pySplitlines content.data,
      lineMatchesNorm (normChars pkgName.data) line = false) :
    _remove_from_requirements true content fileName pkgName =
      (false, "\x27" ++ pkgName ++ "\x27 not found in " ++ fileName, none) := by
  simp only [_remove_from_requirements, Bool.not_true, Bool.false_eq_true,
    if_false]
  rw [removeScan_eq]
  have hany : (pySplitlines content.data).any
      (lineMatchesNorm (normChars pkgName.data)) = false := by
    rw [List.any_eq_false]
    intro l hl
    simp [hnomatch l hl]
  rw [hany]
  simp

theorem claim_C5_witness :
    (∀ line ∈ pySplitlines ("requests>=2.31\nclick\n").data,
      lineMatchesNorm (normChars ("flask").data) line = false) ∧
    _remove_from_requirements true "requests>=2.31\nclick\n"
        "requirements.txt" "flask" =
      (false, "\x27flask\x27 not found in requirements.txt", none) :=
  ⟨by decide,
    claim_C5_remove_not_found_no_write "requests>=2.31\nclick\n"
      "requirements.txt" "flask" (by decide)⟩

/-- **C6 counterexample.** The claim says removal excises only the *first*
matching line, leaving "any subsequent line matching the same name
intact". It is false: on a file with two `httpx` lines,
`_remove_from_requirements` removes *both*, so the result is not the
claimed `"httpx==2.0\nclick\n"` (it is `"click\n"`). -/
theorem claim_C6_counterexample :
    (_remove_from_requirements true "httpx==1.0\nhttpx==2.0\nclick\n"
        "requirements.txt" "httpx").2.2 ≠ some "httpx==2.0\nclick\n" ∧
    (_remove_from_requirements true "httpx==1.0\nhttpx==2.0\nclick\n"
        "requirements.txt" "httpx").2.2 = some "click\n" :=
  ⟨by decide, by decide⟩

/-- **C6 (amended).** For every requirements-style file in which at least
one line matches the normalised package name, `_remove_from_requirements`
returns `ok = true` and excises *every* matching line, keeping all
non-matching lines (entries, comments, blanks, flags) in order, and writes
the file back newline-joined with a single trailing newline; removing
`httpx` from `"requests>=2.31\nhttpx==0.28.1\nclick\n"` yields exactly
`"requests>=2.31\nclick\n"`. -/
theorem claim_C6_remove_precision (content fileName pkgName : String)
    (hmatch : (pySplitlines content.data).any
      (lineMatchesNorm (normChars pkgName.data)) = true) :
    _remove_from_requirements true content fileName pkgName =
      (true, "Removed \x27" ++ pkgName ++ "\x27 from " ++ fileName,
        some ⟨joinNewline ((pySplitlines content.data).filter
          (fun l => !lineMatchesNorm (normChars pkgName.data) l)) ++ ['\n']⟩) := by
  simp only [_remove_from_requirements, Bool.not_true, Bool.false_eq_true,
    if_false]
  rw [removeScan_eq, hmatch]
  simp

theorem claim_C6_witness :
    ((pySplitlines ("requests>=2.31\nhttpx==0.28.1\nclick\n").data).any
      (lineMatchesNorm (normChars ("httpx").data)) = true) ∧
    _remove_from_requirements true "requests>=2.31\nhttpx==0.28.1\nclick\n"
        "requirements.txt" "httpx" =
      (true, "Removed \x27httpx\x27 from requirements.txt",
        some "requests>=2.31\nclick\n") :=
  ⟨by decide,
    (claim_C6_remove_precision "requests>=2.31\nhttpx==0.28.1\nclick\n"
      "requirements.txt" "httpx" (by decide)).trans (by decide)⟩

/-- **C8.** The line-oriented requirements parser skips every blank line,
comment line (`#`) and option-flag line (`-`); a bare dependency token
(name characters only, starting and ending alphanumeric) yields constraint
`"*"`; and on a file containing a comment, a blank line, a `-r other.txt`
flag line and the line `flask`, it yields exactly the one triple
`("flask", "*", <filename>)`. -/
theorem claim_C8_requirements_lines (label : String) :
    (∀ line : List Char, pyStripChars line = [] →
      reqLineTriples label line = []) ∧
    (∀ line : List Char, (pyStripChars line).head? = some '#' →
      reqLineTriples label line = []) ∧
    (∀ line : List Char, (pyStripChars line).head? = some '-' →
      reqLineTriples label line = []) ∧
    (∀ line : List Char, line ≠ [] → line.all isNameCh = true →
      line.head?.all isAlnumCh = true → line.getLast?.all isAlnumCh = true →
      reqLineTriples label line = [(⟨line⟩, "*", label)]) ∧
    _parse_requirements (.ok "# comment\n\n-r other.txt\nflask\n") label =
      [("flask", "*", label)] := by
  refine ⟨?_, ?_, ?_, ?_, ?_⟩
  · intro line h
    simp [reqLineTriples, h]
  · intro line h
    have hne : (pyStripChars line).isEmpty = false := by
      cases hl : pyStripChars line with
      | nil => rw [hl] at h; cases h
      | cons c cs => rfl
    simp [reqLineTriples, hne, h]
  · intro line h
    have hne : (pyStripChars line).isEmpty = false := by
      cases hl : pyStripChars line with
      | nil => rw [hl] at h; cases h
      | cons c cs => rfl
    simp [reqLineTriples, hne, h]
  · intro line hne hall hhead hlast
    have hstrip := pyStripChars_bare line hne hall hhead hlast
    have hparse := parseDepChars_bare line hne hall hhead hlast
    have hnotempty : line.isEmpty = false := by
      cases line with
      | nil => exact absurd rfl hne
      | cons c cs => rfl
    have hheadne : ∀ b : Char, isAlnumCh b = false →
        line.head? ≠ some b := by
      intro b hb hcontra
      rw [hcontra] at hhead
      simp only [Option.all_some] at hhead
      rw [hhead] at hb
      cases hb
    simp only [reqLineTriples, hstrip, hnotempty, Bool.false_eq_true,
      if_false, hparse]
    rw [if_neg (hheadne '#' (by decide)), if_neg (hheadne '-' (by decide))]
  · rfl

theorem claim_C8_witness :
    pyStripChars ("   ".data) = [] ∧
    reqLineTriples "requirements.txt" ("   ".data) = [] ∧
    reqLineTriples "requirements.txt" ("# comment".data) = [] ∧
    reqLineTriples "requirements.txt" ("-r other.txt".data) = [] ∧
    reqLineTriples "requirements.txt" ("flask".data) =
      [("flask", "*", "requirements.txt")] ∧
    _parse_requirements (.ok "# comment\n\n-r other.txt\nflask\n")
      "requirements.txt" = [("flask", "*", "requirements.txt")] :=
  ⟨by decide,
    (claim_C8_requirements_lines "requirements.txt").1 _ (by decide),
    (claim_C8_requirements_lines "requirements.txt").2.1 _ (by decide),
    (claim_C8_requirements_lines "requirements.txt").2.2.1 _ (by decide),
    (claim_C8_requirements_lines "requirements.txt").2.2.2.1 _ (by decide)
      (by decide) (by decide) (by decide),
    (claim_C8_requirements_lines "requirements.txt").2.2.2.2⟩

/-- **C3.** For every input triple list and lock map, every `Package` in
the aggregate has pairwise-distinct `(origin, constraint)` pairs in its
sources list: duplicate declarations of the same `(name, constraint)` in
the same file contribute only one `DependencySource`. -/
theorem claim_C3_provenance_pairs_distinct (lock : String → String)
    (raws : List Triple) (pkg : Package)
    (hmem : pkg ∈ load_dependencies lock raws) :
    (pkg.sources.map pairOf).Nodup := by
  have h := mem_load_spec lock raws pkg hmem
  obtain ⟨hsrc, -, -⟩ := pkgFor_some_spec _ _ _ _ h
  rw [hsrc]
  exact dedupInto_nodup [] _ List.nodup_nil

theorem claim_C3_witness :
    (⟨"requests", [⟨"requirements.txt", ">=2.31"⟩], ""⟩ : Package) ∈
      load_dependencies (fun _ => "")
        [("requests", ">=2.31", "requirements.txt"),
          ("requests", ">=2.31", "requirements.txt")] ∧
    ((⟨"requests", [⟨"requirements.txt", ">=2.31"⟩], ""⟩ : Package).sources.map
      pairOf).Nodup := by
  have hmem : (⟨"requests", [⟨"requirements.txt", ">=2.31"⟩], ""⟩ : Package) ∈
      load_dependencies (fun _ => "")
        [("requests", ">=2.31", "requirements.txt"),
          ("requests", ">=2.31", "requirements.txt")] := by
    unfold load_dependencies
    rw [List.mem_mergeSort]
    decide
  exact ⟨hmem, claim_C3_provenance_pairs_distinct _ _ _ hmem⟩

/-- **C10.** Every `Package` returned by aggregation has a non-empty
sources list: the duplicate check never rejects the append into the fresh
empty list, so each package carries at least the provenance of the triple
that created it. -/
theorem claim_C10_sources_nonempty (lock : String → String)
    (raws : List Triple) (pkg : Package)
    (hmem : pkg ∈ load_dependencies lock raws) :
    pkg.sources ≠ [] := by
  have h := mem_load_spec lock raws pkg hmem
  obtain ⟨hsrc, -, -⟩ := pkgFor_some_spec _ _ _ _ h
  intro hempty
  have hne : pairsFor (_normalise pkg.name) raws ≠ [] := by
    intro hz
    rw [← pkgFor_eq_none_iff lock] at hz
    rw [h] at hz
    cases hz
  obtain ⟨q, qs, hqs⟩ : ∃ q qs,
      pairsFor (_normalise pkg.name) raws = q :: qs := by
    cases hp : pairsFor (_normalise pkg.name) raws with
    | nil => exact absurd hp hne
    | cons q qs => exact ⟨q, qs, rfl⟩
  rw [hempty, hqs, dedupInto_cons] at hsrc
  rw [if_neg (by simp)] at hsrc
  obtain ⟨rest, hr⟩ := dedupInto_sub ([] ++ [q]) qs
  rw [hr] at hsrc
  exact absurd hsrc (by simp)

theorem claim_C10_witness :
    (⟨"certifi", [⟨"venv", "==2024.2.2"⟩], "2024.2.2"⟩ : Package) ∈
      load_dependencies (fun _ => "") [("certifi", "==2024.2.2", "venv")] ∧
    (⟨"certifi", [⟨"venv", "==2024.2.2"⟩], "2024.2.2"⟩ : Package).sources ≠ [] := by
  have hmem : (⟨"certifi", [⟨"venv", "==2024.2.2"⟩], "2024.2.2"⟩ : Package) ∈
      load_dependencies (fun _ => "") [("certifi", "==2024.2.2", "venv")] := by
    unfold load_dependencies
    rw [List.mem_mergeSort]
    decide
  exact ⟨hmem, claim_C10_sources_nonempty _ _ _ hmem⟩

/-- **C7.** Resolved-version backfill: for every package in the aggregate,
`installed_version` is the lock version of its normalised key when the
lock has one (lock wins over installed-environment data), and otherwise
the version of the *first* key-matching `"venv"` triple whose constraint
has the form `==<version>` (first-write-wins; an empty version leaves the
field empty, so the scan continues), or empty if there is none. -/
theorem claim_C7_resolved_version_backfill (lock : String → String)
    (raws : List Triple) (pkg : Package)
    (hmem : pkg ∈ load_dependencies lock raws) :
    pkg.installed_version =
      if lock (_normalise pkg.name) = ""
      then firstVenv (_normalise pkg.name) raws
      else lock (_normalise pkg.name) := by
  have h := mem_load_spec lock raws pkg hmem
  obtain ⟨-, -, hiv⟩ := pkgFor_some_spec _ _ _ _ h
  exact hiv

theorem claim_C7_witness :
    ((⟨"certifi", [⟨"venv", "==2024.2.2"⟩], "2024.2.2"⟩ : Package) ∈
      load_dependencies (fun _ => "") [("certifi", "==2024.2.2", "venv")]) ∧
    (⟨"certifi", [⟨"venv", "==2024.2.2"⟩], "2024.2.2"⟩ : Package).installed_version
      = "2024.2.2" ∧
    (⟨"certifi", [⟨"venv", "==2024.2.2"⟩], "2024.2.2"⟩ : Package).sources =
      [⟨"venv", "==2024.2.2"⟩] := by
  have hmem : (⟨"certifi", [⟨"venv", "==2024.2.2"⟩], "2024.2.2"⟩ : Package) ∈
      load_dependencies (fun _ => "") [("certifi", "==2024.2.2", "venv")] := by
    unfold load_dependencies
    rw [List.mem_mergeSort]
    decide
  refine ⟨hmem, ?_, by decide⟩
  exact (claim_C7_resolved_version_backfill _ _ _ hmem).trans (by decide)

/-- **C1.** If a normalised key occurs among the input triples with
pairwise-distinct origins and pairwise-distinct constraints, aggregation
produces exactly one `Package` for that key; its sources are exactly the
`(origin, constraint)` pairs of those triples, in order; and the final
list is sorted ascending by case-insensitive display name. -/
theorem claim_C1_merge_completeness_and_sort (lock : String → String)
    (raws : List Triple) (k : String)
    (hocc : pairsFor k raws ≠ [])
    (hfiles : ((pairsFor k raws).map Prod.fst).Nodup)
    (_hspecs : ((pairsFor k raws).map Prod.snd).Nodup) :
    (∃ pkg ∈ load_dependencies lock raws,
      _normalise pkg.name = k ∧
      pkg.sources.map pairOf = pairsFor k raws ∧
      (∀ q ∈ load_dependencies lock raws, _normalise q.name = k → q = pkg)) ∧
    (load_dependencies lock raws).Pairwise (fun p q => pkgLe p q = true) := by
  constructor
  · obtain ⟨p, hp⟩ : ∃ p, pkgFor lock k raws = some p := by
      cases hp : pkgFor lock k raws with
      | none => exact absurd ((pkgFor_eq_none_iff _ _ _).1 hp) hocc
      | some p => exact ⟨p, rfl⟩
    obtain ⟨hsrc, hname, -⟩ := pkgFor_some_spec _ _ _ _ hp
    refine ⟨p, load_dependencies_mem_of_pkgFor lock raws k p hp, hname, ?_, ?_⟩
    · rw [hsrc, dedupInto_eq_append [] _ (List.Nodup.of_map _ hfiles)
        (by intro q _ hq; cases hq), List.nil_append]
    · intro q hq hqk
      have hq2 := mem_load_spec lock raws q hq
      rw [hqk, hp] at hq2
      exact Option.some.inj hq2.symm
  · exact @List.sorted_mergeSort _ pkgLe pkgLe_trans pkgLe_total _

theorem claim_C1_witness :
    (pairsFor "requests"
        [("requests", ">=2.31", "pyproject.toml"),
          ("requests", ">=2.0", "requirements.txt")] ≠ [] ∧
      ((pairsFor "requests"
        [("requests", ">=2.31", "pyproject.toml"),
          ("requests", ">=2.0", "requirements.txt")]).map Prod.fst).Nodup ∧
      ((pairsFor "requests"
        [("requests", ">=2.31", "pyproject.toml"),
          ("requests", ">=2.0", "requirements.txt")]).map Prod.snd).Nodup) ∧
    ((∃ pkg ∈ load_dependencies (fun _ => "")
        [("requests", ">=2.31", "pyproject.toml"),
          ("requests", ">=2.0", "requirements.txt")],
      _normalise pkg.name = "requests" ∧
      pkg.sources.map pairOf = pairsFor "requests"
        [("requests", ">=2.31", "pyproject.toml"),
          ("requests", ">=2.0", "requirements.txt")] ∧
      (∀ q ∈ load_dependencies (fun _ => "")
          [("requests", ">=2.31", "pyproject.toml"),
            ("requests", ">=2.0", "requirements.txt")],
        _normalise q.name = "requests" → q = pkg)) ∧
    (load_dependencies (fun _ => "")
        [("requests", ">=2.31", "pyproject.toml"),
          ("requests", ">=2.0", "requirements.txt")]).Pairwise
      (fun p q => pkgLe p q = true)) :=
  ⟨⟨by decide, by decide, by decide⟩,
    claim_C1_merge_completeness_and_sort (fun _ => "")
      [("requests", ">=2.31", "pyproject.toml"),
        ("requests", ">=2.0", "requirements.txt")] "requests"
      (by decide) (by decide) (by decide)⟩

end PyDep
